import Mathlib

set_option linter.unusedVariables false

/-!
Shallow embedding of the line-label placement algorithm of
src/labels/label_line.js, together with theorems checking the
natural-language specification against the code.

The cursor / iteration protocol (getNextSegment, nextLabel) is modelled
over natural numbers; the geometric fit, angle and bounding-box code is
modelled over real numbers, with the one JavaScript arithmetic special
case reachable in this code (division of 100 by zero producing Infinity,
and the products and comparisons involving it) modelled by an explicit
extended-number type.
-/

namespace LabelLine

/-- The two placement modes of the state machine (source constant
PLACEMENT: MID_POINT = 0, CORNER = 1). -/
inductive Pl where
  | mid : Pl
  | corner : Pl
deriving DecidableEq, Repr

/-- A cursor state: current segment index and current placement mode
(source fields segment_index and placement). -/
abbrev St := ℕ × Pl

/-- JavaScript defaulting with the or-operator on an optional numeric
field (source line 40: layout.segment_index or layout.segment_start or 0):
a missing field and the number 0 are both falsy and fall through. -/
def jsOrD (o : Option ℕ) (d : ℕ) : ℕ :=
  match o with
  | none => d
  | some n => if n = 0 then d else n

/-- Initial segment index chosen by the constructor (source line 40). -/
def initialSegmentIndex (seg_idx seg_start : Option ℕ) : ℕ :=
  jsOrD seg_idx (jsOrD seg_start 0)

/-- The segment_max field computed by the constructor (source line 41):
layout.segment_end or lines.length.  The rest of the class never reads
this field. -/
def segmentMax (seg_end : Option ℕ) (len : ℕ) : ℕ :=
  jsOrD seg_end len

/-- One advance of the segment cursor (source getNextSegment, lines
69-86), as a state transformer.  N is lines.length and multi records
should_articulate and segment_size.length > 1.  From CORNER the mode
becomes MID_POINT at the same index; from MID_POINT the cursor is
exhausted exactly when segment_index is at least lines.length - 2
(note: the source compares against lines.length, not segment_max),
otherwise the index is incremented, entering CORNER mode when multi. -/
def stepState (N : ℕ) (multi : Bool) : St → Option St
  | (i, Pl.corner) => some (i, Pl.mid)
  | (i, Pl.mid) =>
      if N - 2 ≤ i then none
      else some (i + 1, if multi then Pl.corner else Pl.mid)

/-- Iterate the cursor n times (n successive getNextSegment calls),
failing if any of them reports exhaustion. -/
def iterateStep (N : ℕ) (multi : Bool) : ℕ → St → Option St
  | 0, s => some s
  | n + 1, s =>
      match stepState N multi s with
      | none => none
      | some s' => iterateStep N multi n s'

/-- Measure on cursor states that every successful step strictly
decreases; used for termination of the search loops. -/
def meas (N : ℕ) : St → ℕ
  | (i, p) => 2 * (N - i) + (if p = Pl.corner then 1 else 0)

theorem stepState_meas_lt {N : ℕ} {multi : Bool} {s t : St}
    (h : stepState N multi s = some t) : meas N t < meas N s := by
  obtain ⟨i, p⟩ := s
  cases p with
  | corner =>
      simp only [stepState, Option.some.injEq] at h
      subst h
      simp [meas]
  | mid =>
      simp only [stepState] at h
      split at h
      · exact absurd h (by simp)
      · rename_i hlt
        push_neg at hlt
        simp only [Option.some.injEq] at h
        subst h
        have hiN : i + 1 ≤ N := by omega
        cases multi <;> simp [meas] <;> omega

/-- A 2D point in map units. -/
abbrev Point := ℝ × ℝ

/-- Modelled from the spec: componentwise vector subtraction, the
Vector.sub operation of the external vector module (src/vector.js is not
part of the provided sources; spec section 2 lists vector
subtract/length/rotate as external primitives). -/
def vsub (a b : Point) : Point := (a.1 - b.1, a.2 - b.2)

/-- Modelled from the spec: componentwise vector addition (external
Vector.add primitive). -/
def vadd (a b : Point) : Point := (a.1 + b.1, a.2 + b.2)

/-- Modelled from the spec: Euclidean length of a vector (external
Vector.length primitive). -/
noncomputable def vlength (v : Point) : ℝ := Real.sqrt (v.1 ^ 2 + v.2 ^ 2)

/-- Modelled from the spec: rotation of a vector by an angle (external
Vector.rot primitive), the standard rotation matrix. -/
noncomputable def vrot (v : Point) (t : ℝ) : Point :=
  (v.1 * Real.cos t - v.2 * Real.sin t, v.1 * Real.sin t + v.2 * Real.cos t)

/-- A JavaScript number as it can occur in the fit computations: a
finite real, positive or negative Infinity (from dividing 100 by a zero
divisor when line_exceed = 100), or NaN (from multiplying an infinity
by zero). -/
inductive JSNum where
  | fin : ℝ → JSNum
  | posInf : JSNum
  | negInf : JSNum
  | nan : JSNum

/-- The excess ratio 100 / (100 - line_exceed) (source lines 132 and
145), with the JavaScript behaviour at a zero divisor: 100 divided by
positive zero is positive Infinity. -/
noncomputable def excessOf (line_exceed : ℝ) : JSNum :=
  if 100 - line_exceed = 0 then JSNum.posInf
  else JSNum.fin (100 / (100 - line_exceed))

/-- Product of a JavaScript number with a finite real, as JavaScript
multiplies: an infinity times zero is NaN, an infinity times a nonzero
real is a signed infinity. -/
noncomputable def mulJS : JSNum → ℝ → JSNum
  | JSNum.fin x, r => JSNum.fin (x * r)
  | JSNum.posInf, r =>
      if 0 < r then JSNum.posInf else if r < 0 then JSNum.negInf else JSNum.nan
  | JSNum.negInf, r =>
      if 0 < r then JSNum.negInf else if r < 0 then JSNum.posInf else JSNum.nan
  | JSNum.nan, _ => JSNum.nan

/-- The JavaScript comparison of a finite real with a JSNum: any finite
real is below positive Infinity, no real is below negative Infinity,
and every comparison with NaN is false. -/
def ltRJ (x : ℝ) : JSNum → Prop
  | JSNum.fin y => x < y
  | JSNum.posInf => True
  | JSNum.negInf => False
  | JSNum.nan => False

/-- The straight (MID_POINT) fit test (source doesSegmentFit, lines
131-137): the label length in map units must be strictly below the
excess ratio times the segment length. -/
noncomputable def doesSegmentFitStraight
    (p0 p1 : Point) (size0 upp line_exceed : ℝ) : Prop :=
  ltRJ (size0 * upp) (mulJS (excessOf line_exceed) (vlength (vsub p0 p1)))

open Classical in
/-- The greedy split-point loop of fitKinkedSegment (source lines
166-178).  Starting at kink index segment_size.length - 1, each
iteration moves the piece at the current kink index from side 1 to side
2 and tests the pair of widths; on failure the kink index is
decremented, and index 0 terminates the search unsuccessfully.  Returns
the kink index and the two tested widths on success. -/
noncomputable def kinkLoop (ss : List ℝ) (fits : ℝ → ℝ → Prop) :
    ℕ → ℝ → ℝ → Option (ℕ × ℝ × ℝ)
  | 0, _, _ => none
  | k + 1, l1, l2 =>
      let w := ss.getD (k + 1) 0
      if fits (l1 - w) (l2 + w) then some (k + 1, l1 - w, l2 + w)
      else kinkLoop ss fits k (l1 - w) (l2 + w)

open Classical in
/-- The corner (kinked) fit test (source fitKinkedSegment, lines
144-196).  Rejects immediately when the x-components of the two
sub-segment vectors disagree in sign while the y-components strictly
agree; otherwise runs the greedy split loop, and on success reports the
kink index, the two tested widths, and the two collapsed sizes (sums of
the segment_size pieces below and from the kink index). -/
noncomputable def fitKinkedSegment (p0 p1 p2 : Point) (ss : List ℝ)
    (size0 upp line_exceed : ℝ) : Option (ℕ × ℝ × ℝ × ℝ × ℝ) :=
  let ex := excessOf line_exceed
  let p0p1 := vsub p0 p1
  let p1p2 := vsub p1 p2
  if p0p1.1 * p1p2.1 < 0 ∧ 0 < p0p1.2 * p1p2.2 then none
  else
    let L1 := vlength p0p1
    let L2 := vlength p1p2
    match kinkLoop ss
        (fun l1 l2 => ltRJ (upp * l1) (mulJS ex L1) ∧ ltRJ (upp * l2) (mulJS ex L2))
        (ss.length - 1) size0 0 with
    | none => none
    | some (k, l1, l2) => some (k, l1, l2, (ss.take k).sum, (ss.drop k).sum)

/-- Mathematical atan2 (the JavaScript Math.atan2 builtin on finite
inputs): the angle of the point (x, y), in the interval (-pi, pi]. -/
noncomputable def atan2 (y x : ℝ) : ℝ :=
  if 0 < x then Real.arctan (y / x)
  else if x < 0 then
    (if 0 ≤ y then Real.arctan (y / x) + Real.pi
     else Real.arctan (y / x) - Real.pi)
  else
    (if 0 < y then Real.pi / 2
     else if y < 0 then -(Real.pi / 2)
     else 0)

/-- The JavaScript remainder operator on reals: a - b * q where q is
a / b truncated toward zero (the sign of the result follows the
dividend). -/
noncomputable def jsMod (a b : ℝ) : ℝ :=
  a - b * (if 0 ≤ a / b then (⌊a / b⌋ : ℝ) else (⌈a / b⌉ : ℝ))

/-- The normalization step of getAngleFromSegment (source lines
367-375): move an angle of the second quadrant to the fourth quadrant
(add pi, reduce modulo 2 pi) when theta is at least pi/2, and make a
negative angle positive (add 2 pi). -/
noncomputable def normalizeAngle (theta : ℝ) : ℝ :=
  if Real.pi / 2 ≤ theta then jsMod (theta + Real.pi) (2 * Real.pi)
  else if theta < 0 then theta + 2 * Real.pi
  else theta

/-- The directional angle of a segment (source getAngleFromSegment,
lines 361-378): theta = atan2(dx, dy) + pi/2 with the coordinates
deliberately swapped, then normalized. -/
noncomputable def getAngleFromSegment (pt1 pt2 : Point) : ℝ :=
  normalizeAngle (atan2 (vsub pt1 pt2).1 (vsub pt1 pt2).2 + Real.pi / 2)

open Classical in
/-- The pair of angles of a corner placement (source getCurrentAngle,
CORNER case, lines 209-218): the two sub-segment angles, ordered by the
x-direction agreement of the two sub-segment vectors. -/
noncomputable def cornerAngles (p0 p1 p2 : Point) : ℝ × ℝ :=
  let theta1 := getAngleFromSegment p0 p1
  let theta2 := getAngleFromSegment p1 p2
  let p0p1 := vsub p0 p1
  let p1p2 := vsub p1 p2
  if 0 ≤ p0p1.1 ∧ 0 ≤ p1p2.1 then (theta2, theta1) else (theta1, theta2)

open Classical in
/-- The corner angle-bound test (source inAngleBounds, CORNER case,
lines 250-265): normalize both angles to be nonnegative, fold the
absolute difference to the shorter arc, and accept when it is at most
MAX_ANGLE = pi/2. -/
noncomputable def inAngleBoundsCorner (a : ℝ × ℝ) : Prop :=
  let angle0 := if a.1 < 0 then a.1 + 2 * Real.pi else a.1
  let angle1 := if a.2 < 0 then a.2 + 2 * Real.pi else a.2
  let theta := |angle1 - angle0|
  min (2 * Real.pi - theta) theta ≤ Real.pi / 2

/-- A corner candidate is produced for a segment exactly when the
kinked fit succeeds and the corner angle bound accepts (the decision
pipeline of getNextFittingSegment, lines 113-118, for CORNER mode). -/
noncomputable def cornerCandidate (p0 p1 p2 : Point) (ss : List ℝ)
    (size0 upp line_exceed : ℝ) : Prop :=
  (fitKinkedSegment p0 p1 p2 ss size0 upp line_exceed).isSome ∧
    inAngleBoundsCorner (cornerAngles p0 p1 p2)

/-- The JavaScript runtime error relevant to this code: accessing a
let-bound variable inside its temporal dead zone. -/
inductive JSErr where
  | referenceError : JSErr
deriving DecidableEq

/-- Reading a let-bound local variable: before its initializer has run
the binding is in the temporal dead zone and the access throws a
ReferenceError. -/
def readVar {α : Type} (v : Option α) : Except JSErr α :=
  match v with
  | none => Except.error JSErr.referenceError
  | some x => Except.ok x

/-- Modelled from the spec: the oriented bounding box produced by the
external OBB primitive (src/utils/obb.js is not part of the provided
sources), recorded as its center, angle and dimensions. -/
structure OBBm where
  cx : ℝ
  cy : ℝ
  angle : ℝ
  w : ℝ
  h : ℝ

/-- Modelled from the spec: the axis-aligned extent query of the
external OBB primitive, the smallest axis-aligned rectangle containing
the rotated box. -/
noncomputable def obbExtent (o : OBBm) : ℝ × ℝ × ℝ × ℝ :=
  let ex := |o.w / 2 * Real.cos o.angle| + |o.h / 2 * Real.sin o.angle|
  let ey := |o.w / 2 * Real.sin o.angle| + |o.h / 2 * Real.cos o.angle|
  (o.cx - ex, o.cy - ey, o.cx + ex, o.cy + ey)

open Classical in
/-- The oriented-box helper (source getOBB, lines 344-359): apply the
pixel offset, rotated into the label frame, x positive and y pointing
down, then build the box with the negated angle. -/
noncomputable def getOBB (position : Point) (width height angle : ℝ)
    (offset : Point) (upp : ℝ) : OBBm :=
  if offset.1 ≠ 0 ∨ offset.2 ≠ 0 then
    let o := vrot offset angle
    ⟨position.1 + o.1 * upp, position.2 - o.2 * upp, -angle, width, height⟩
  else
    ⟨position.1, position.2, -angle, width, height⟩

/-- One produced label candidate (the fields of a Label object that
updateBBoxes populates). -/
structure LabelOut where
  size : ℝ × ℝ
  obb : OBBm
  aabb : ℝ × ℝ × ℝ × ℝ
  offset : Point
  position : Point
  angle : ℝ

open Classical in
/-- The bounding-box update (source updateBBoxes, lines 271-341).  The
local variable named label is declared by a let statement at source
line 313 (inside the corner loop body) and at source line 332 (in the
switch block of the midpoint case), but both branches evaluate it as an
argument of removeLabel (source lines 292 and 324) before the
declaration's initializer has run, so the access happens inside the
temporal dead zone.  The eps argument is the Label.epsilon slack
constant of the external label module. -/
noncomputable def updateBBoxes (placement : Pl) (size : ℝ × ℝ)
    (buffer offset0 : Point) (upp eps spread : ℝ) (position : Point)
    (angles : ℝ × ℝ) (collapsed : ℝ × ℝ) : Except JSErr (List LabelOut) := do
  let height := (size.2 + buffer.2 * 2) * upp * eps
  match placement with
  | Pl.corner =>
      let angle0 := if angles.1 < 0 then angles.1 + 2 * Real.pi else angles.1
      let angle1 := if angles.2 < 0 then angles.2 + 2 * Real.pi else angles.2
      let theta := Real.pi - |angle1 - angle0|
      let dx := spread * |size.2 / Real.tan (0.5 * theta)|
      -- loop iteration i = 0: removeLabel(i, label) reads label in its
      -- temporal dead zone
      let _ ← readVar (none : Option LabelOut)
      let width0 := collapsed.1 * upp * eps
      let nudge0 := -(1 : ℝ) * (width0 / 2 + dx)
      let pos0 := vadd position (vrot (nudge0, 0) (-angles.1))
      let off0 : Point :=
        (offset0.1 + -(1 : ℝ) * (collapsed.1 / 2 + dx), offset0.2)
      let obb0 := getOBB pos0 width0 height angles.1 off0 upp
      let lab0 : LabelOut :=
        ⟨(collapsed.1, size.2), obb0, obbExtent obb0, off0, position, angles.1⟩
      -- loop iteration i = 1: the same dead-zone read on a fresh binding
      let _ ← readVar (none : Option LabelOut)
      let width1 := collapsed.2 * upp * eps
      let nudge1 := (1 : ℝ) * (width1 / 2 + dx)
      let pos1 := vadd position (vrot (nudge1, 0) (-angles.2))
      let off1 : Point :=
        (offset0.1 + (1 : ℝ) * (collapsed.2 / 2 + dx), offset0.2)
      let obb1 := getOBB pos1 width1 height angles.2 off1 upp
      let lab1 : LabelOut :=
        ⟨(collapsed.2, size.2), obb1, obbExtent obb1, off1, position, angles.2⟩
      pure [lab0, lab1]
  | Pl.mid =>
      -- removeLabel(0, label) reads label in its temporal dead zone
      let _ ← readVar (none : Option LabelOut)
      let width := (size.1 + buffer.1 * 2) * upp * eps
      let obb := getOBB position width height angles.1 offset0 upp
      let lab : LabelOut :=
        ⟨size, obb, obbExtent obb, offset0, position, angles.1⟩
      pure [lab]

open Classical in
/-- The constructor's search for the first acceptable segment (source
getNextFittingSegment, lines 107-122), abstracted over the acceptance
verdict A of the fit, tile-bound and angle-bound tests at a cursor
state: keep the current state if accepted, otherwise advance the cursor
and retry, failing on exhaustion. -/
noncomputable def ctorSearch (N : ℕ) (multi : Bool) (A : St → Prop) :
    St → Option St
  | s =>
    if A s then some s
    else
      match h : stepState N multi s with
      | none => none
      | some t => ctorSearch N multi A t
termination_by s => meas N s
decreasing_by exact stepState_meas_lt h

theorem ctorSearch_meas_le (N : ℕ) (multi : Bool) (A : St → Prop) :
    ∀ m s r, meas N s ≤ m → ctorSearch N multi A s = some r →
      meas N r ≤ meas N s := by
  intro m
  induction m with
  | zero =>
      intro s r hm h
      rw [ctorSearch] at h
      split at h
      · simp only [Option.some.injEq] at h
        subst h
        exact le_refl _
      · split at h
        · exact absurd h (by simp)
        · rename_i t ht
          exact absurd (lt_of_lt_of_le (stepState_meas_lt ht) hm)
            (Nat.not_lt_zero _)
  | succ n ih =>
      intro s r hm h
      rw [ctorSearch] at h
      split at h
      · simp only [Option.some.injEq] at h
        subst h
        exact le_refl _
      · split at h
        · exact absurd h (by simp)
        · rename_i t ht
          have hlt := stepState_meas_lt ht
          have := ih t r (by omega) h
          omega

/-- One advance of the iteration protocol (source nextLabel, lines
51-67): ask the cursor for the next segment and, if one exists, build a
new attempt seeded there, which itself searches forward for the first
acceptable segment; report failure on exhaustion or when the new
attempt is discarded. -/
noncomputable def nextLabelStep (N : ℕ) (multi : Bool) (A : St → Prop)
    (s : St) : Option St :=
  (stepState N multi s).bind (ctorSearch N multi A)

theorem nextLabelStep_meas_lt {N : ℕ} {multi : Bool} {A : St → Prop}
    {s r : St} (h : nextLabelStep N multi A s = some r) :
    meas N r < meas N s := by
  unfold nextLabelStep at h
  cases ht : stepState N multi s with
  | none => rw [ht] at h; exact absurd h (by simp [Option.bind])
  | some t =>
      rw [ht] at h
      simp only [Option.some_bind] at h
      exact lt_of_le_of_lt
        (ctorSearch_meas_le N multi A (meas N t) t r (le_refl _) h)
        (stepState_meas_lt ht)

open Classical in
/-- The number of placement attempts obtained by starting from an
attempt at state s and repeatedly advancing until exhaustion (the
attempt at s included). -/
noncomputable def chainCount (N : ℕ) (multi : Bool) (A : St → Prop) :
    St → ℕ
  | s =>
    match h : nextLabelStep N multi A s with
    | none => 1
    | some t => 1 + chainCount N multi A t
termination_by s => meas N s
decreasing_by exact nextLabelStep_meas_lt h

theorem sum_take_one_drop (ss : List ℝ) : ∀ n : ℕ,
    ((ss.drop n).take 1).sum = ss.getD n 0 := by
  induction ss with
  | nil => intro n; simp [List.getD]
  | cons a t ih =>
      intro n
      cases n with
      | zero => simp [List.getD]
      | succ m => simpa using ih m

theorem sum_take_succ_getD (l : List ℝ) : ∀ m : ℕ,
    (l.take (m + 1)).sum = (l.take m).sum + l.getD m 0 := by
  induction l with
  | nil => intro m; simp [List.getD]
  | cons a t ih =>
      intro m
      cases m with
      | zero => simp [List.getD]
      | succ j =>
          simp only [List.take_succ_cons, List.sum_cons, List.getD_cons_succ,
            ih j]
          ring

theorem getD_drop_zero (ss : List ℝ) : ∀ j m : ℕ,
    (ss.drop j).getD m 0 = ss.getD (j + m) 0 := by
  induction ss with
  | nil => intro j m; simp [List.getD]
  | cons a t ih =>
      intro j m
      cases j with
      | zero => simp
      | succ i =>
          simp only [List.drop_succ_cons, ih i m]
          have : i + 1 + m = i + m + 1 := by omega
          rw [this]
          simp [List.getD]

theorem kinkLoop_some (ss : List ℝ) (fits : ℝ → ℝ → Prop) :
    ∀ k l1 l2 k' l1' l2',
      kinkLoop ss fits k l1 l2 = some (k', l1', l2') →
      1 ≤ k' ∧ k' ≤ k ∧ fits l1' l2' ∧ l1' + l2' = l1 + l2 ∧
        l2' = l2 + ((ss.drop k').take (k + 1 - k')).sum := by
  intro k
  induction k with
  | zero =>
      intro l1 l2 k' l1' l2' h
      simp [kinkLoop] at h
  | succ k ih =>
      intro l1 l2 k' l1' l2' h
      rw [kinkLoop] at h
      split at h
      · rename_i hfit
        simp only [Option.some.injEq, Prod.mk.injEq] at h
        obtain ⟨hk, hl1, hl2⟩ := h
        subst hk hl1 hl2
        refine ⟨by omega, le_refl _, hfit, by ring, ?_⟩
        have : k + 1 + 1 - (k + 1) = 1 := by omega
        rw [this, sum_take_one_drop]
      · rename_i hfit
        obtain ⟨h1, h2, h3, h4, h5⟩ := ih _ _ _ _ _ h
        refine ⟨h1, by omega, h3, by linarith [h4], ?_⟩
        have hsplit : k + 1 + 1 - k' = (k + 1 - k') + 1 := by omega
        rw [hsplit, sum_take_succ_getD, getD_drop_zero]
        have : k' + (k + 1 - k') = k + 1 := by omega
        rw [this]
        rw [h5]
        ring

theorem fitKinked_some_spec {p0 p1 p2 : Point} {ss : List ℝ}
    {size0 upp lexc : ℝ} {k : ℕ} {l1 l2 c0 c1 : ℝ}
    (h : fitKinkedSegment p0 p1 p2 ss size0 upp lexc =
      some (k, l1, l2, c0, c1)) :
    1 ≤ k ∧ k < ss.length ∧ c0 = (ss.take k).sum ∧ c1 = (ss.drop k).sum ∧
      l1 + l2 = size0 ∧ l2 = c1 := by
  simp only [fitKinkedSegment] at h
  split at h
  · exact absurd h (by simp)
  · rename_i hsign
    split at h
    · exact absurd h (by simp)
    · rename_i ko lo1 lo2 hloop
      simp only [Option.some.injEq, Prod.mk.injEq] at h
      obtain ⟨hk, hl1, hl2, hc0, hc1⟩ := h
      obtain ⟨h1, h2, _, h4, h5⟩ := kinkLoop_some ss _ _ _ _ _ _ _ hloop
      subst hk hl1 hl2 hc0 hc1
      refine ⟨h1, by omega, rfl, rfl, by linarith [h4], ?_⟩
      rw [h5]
      have harith : ss.length - 1 + 1 - ko = ss.length - ko := by omega
      rw [harith]
      have hlen2 : (ss.drop ko).length ≤ ss.length - ko := by
        simp [List.length_drop]
      rw [List.take_of_length_le hlen2]
      ring

theorem jsMod_mem (a b : ℝ) (ha : 0 ≤ a) (hb : 0 < b) :
    0 ≤ jsMod a b ∧ jsMod a b < b := by
  have hq : 0 ≤ a / b := div_nonneg ha hb.le
  unfold jsMod
  rw [if_pos hq]
  have hfl : (⌊a / b⌋ : ℝ) ≤ a / b := Int.floor_le _
  have hfu : a / b < ⌊a / b⌋ + 1 := Int.lt_floor_add_one _
  constructor
  · have h1 : b * (⌊a / b⌋ : ℝ) ≤ b * (a / b) :=
      mul_le_mul_of_nonneg_left hfl hb.le
    have h2 : b * (a / b) = a := by field_simp
    linarith
  · have h1 : b * (a / b) < b * ((⌊a / b⌋ : ℝ) + 1) :=
      mul_lt_mul_of_pos_left hfu hb
    have h2 : b * (a / b) = a := by field_simp
    nlinarith

theorem atan2_range (y x : ℝ) : -Real.pi < atan2 y x ∧ atan2 y x ≤ Real.pi := by
  have hpi := Real.pi_pos
  have harc := Real.arctan_mem_Ioo (y / x)
  obtain ⟨ha1, ha2⟩ := harc
  unfold atan2
  split
  · constructor <;> [linarith; linarith]
  · split
    · rename_i hx0 hxneg
      split
      · rename_i hy
        have hyx : y / x ≤ 0 := by
          rw [div_nonpos_iff]
          left
          exact ⟨hy, hxneg.le⟩
        have : Real.arctan (y / x) ≤ 0 := by
          have := Real.arctan_strictMono.monotone hyx
          rwa [Real.arctan_zero] at this
        constructor <;> linarith
      · rename_i hy
        push_neg at hy
        have hyx : 0 < y / x := by
          rw [div_pos_iff]
          right
          exact ⟨hy, hxneg⟩
        have : 0 < Real.arctan (y / x) := by
          have := Real.arctan_strictMono hyx
          rwa [Real.arctan_zero] at this
        constructor <;> linarith
    · split
      · constructor <;> linarith
      · split
        · constructor <;> linarith
        · constructor <;> linarith

theorem normalizeAngle_mem (t : ℝ) (hl : -Real.pi < t) :
    0 ≤ normalizeAngle t ∧ normalizeAngle t < 2 * Real.pi := by
  have hpi := Real.pi_pos
  unfold normalizeAngle
  split
  · rename_i hge
    have hnn : 0 ≤ t + Real.pi := by linarith
    have h2pi : (0 : ℝ) < 2 * Real.pi := by linarith
    exact jsMod_mem (t + Real.pi) (2 * Real.pi) hnn h2pi
  · split
    · rename_i hno hlt
      constructor <;> linarith
    · rename_i hno hge0
      push_neg at hno hge0
      constructor <;> linarith

theorem getAngle_mem (pt1 pt2 : Point) :
    0 ≤ getAngleFromSegment pt1 pt2 ∧
      getAngleFromSegment pt1 pt2 < 2 * Real.pi := by
  have hpi := Real.pi_pos
  obtain ⟨hl, hu⟩ := atan2_range (vsub pt1 pt2).1 (vsub pt1 pt2).2
  unfold getAngleFromSegment
  exact normalizeAngle_mem _ (by linarith)

theorem ctorSearch_g_le (N : ℕ) (multi : Bool) (A : St → Prop)
    (g : St → ℕ) (hg : ∀ s t, stepState N multi s = some t → g t < g s) :
    ∀ m s r, meas N s ≤ m → ctorSearch N multi A s = some r → g r ≤ g s := by
  intro m
  induction m with
  | zero =>
      intro s r hm h
      rw [ctorSearch] at h
      split at h
      · simp only [Option.some.injEq] at h
        subst h
        exact le_refl _
      · split at h
        · exact absurd h (by simp)
        · rename_i t ht
          exact absurd (lt_of_lt_of_le (stepState_meas_lt ht) hm)
            (Nat.not_lt_zero _)
  | succ n ih =>
      intro s r hm h
      rw [ctorSearch] at h
      split at h
      · simp only [Option.some.injEq] at h
        subst h
        exact le_refl _
      · split at h
        · exact absurd h (by simp)
        · rename_i t ht
          have h1 := stepState_meas_lt ht
          have h2 := ih t r (by omega) h
          have h3 := hg s t ht
          omega

theorem chainCount_le_g (N : ℕ) (multi : Bool) (A : St → Prop)
    (g : St → ℕ) (hg : ∀ s t, stepState N multi s = some t → g t < g s) :
    ∀ m s, meas N s ≤ m → chainCount N multi A s ≤ g s + 1 := by
  intro m
  induction m with
  | zero =>
      intro s hm
      rw [chainCount]
      split
      · omega
      · rename_i t ht
        exact absurd (lt_of_lt_of_le (nextLabelStep_meas_lt ht) hm)
          (Nat.not_lt_zero _)
  | succ n ih =>
      intro s hm
      rw [chainCount]
      split
      · omega
      · rename_i t ht
        have hmlt := nextLabelStep_meas_lt ht
        have hcc := ih t (by omega)
        have hglt : g t < g s := by
          unfold nextLabelStep at ht
          cases hst : stepState N multi s with
          | none => rw [hst] at ht; exact absurd ht (by simp [Option.bind])
          | some u =>
              rw [hst] at ht
              simp only [Option.some_bind] at ht
              have := ctorSearch_g_le N multi A g hg (meas N u) u t
                (le_refl _) ht
              exact lt_of_le_of_lt this (hg s u hst)
        omega

/-- Weight function counting the maximal number of remaining placement
attempts from a cursor state, articulated case. -/
def cBound (N : ℕ) : St → ℕ
  | (i, p) => (if p = Pl.corner then 1 else 0) + 2 * (N - 2 - i)

/-- Weight function counting the maximal number of remaining placement
attempts from a cursor state, non-articulated case. -/
def cBound1 (N : ℕ) : St → ℕ
  | (i, p) => (if p = Pl.corner then 1 else 0) + (N - 2 - i)

theorem stepState_cBound_lt {N : ℕ} {multi : Bool} {s t : St}
    (h : stepState N multi s = some t) : cBound N t < cBound N s := by
  obtain ⟨i, p⟩ := s
  cases p with
  | corner =>
      simp only [stepState, Option.some.injEq] at h
      subst h
      simp [cBound]
  | mid =>
      simp only [stepState] at h
      split at h
      · exact absurd h (by simp)
      · rename_i hlt
        push_neg at hlt
        simp only [Option.some.injEq] at h
        subst h
        cases multi <;> simp [cBound] <;> omega

theorem stepState_cBound1_lt {N : ℕ} {s t : St}
    (h : stepState N false s = some t) : cBound1 N t < cBound1 N s := by
  obtain ⟨i, p⟩ := s
  cases p with
  | corner =>
      simp only [stepState, Option.some.injEq] at h
      subst h
      simp [cBound1]
  | mid =>
      simp only [stepState] at h
      split at h
      · exact absurd h (by simp)
      · rename_i hlt
        push_neg at hlt
        simp only [Option.some.injEq] at h
        subst h
        simp [cBound1]
        omega

theorem excessOf_ne {lexc : ℝ} (h : lexc ≠ 100) :
    excessOf lexc = JSNum.fin (100 / (100 - lexc)) := by
  unfold excessOf
  rw [if_neg]
  intro hc
  exact h (by linarith)

theorem excessOf_hundred : excessOf 100 = JSNum.posInf := by
  unfold excessOf
  rw [if_pos]
  norm_num

theorem vlength_x0 (x : ℝ) : vlength (x, 0) = |x| := by
  unfold vlength
  simp [Real.sqrt_sq_eq_abs]

/-- C8: advancing the cursor from CORNER mode transitions to STRAIGHT
(MID_POINT) mode at the same segment index, so the straight segment at
the same location is evaluated before the cursor moves on (source
getNextSegment, lines 71-73). -/
theorem C8_corner_advances_to_straight_same_index
    (N : ℕ) (multi : Bool) (i : ℕ) :
    stepState N multi (i, Pl.corner) = some (i, Pl.mid) := rfl

/-- C1: the cursor does not honor the configured sub-range.  With
segment_start = 2 and segment_end = 5 on a 10-point line the initial
index is 2 and segment_max is 5, yet six advances from STRAIGHT mode
all succeed and drive the cursor to index 8, outside [2, 5): the
exhaustion test of getNextSegment (source line 75) compares against
lines.length - 2 and the segment_max field (source line 41) is never
read. -/
theorem C1_segment_end_ignored :
    initialSegmentIndex none (some 2) = 2 ∧
    segmentMax (some 5) 10 = 5 ∧
    iterateStep 10 false 6 (2, Pl.mid) = some (8, Pl.mid) ∧
    ¬ (8 : ℕ) < 5 := by
  refine ⟨rfl, rfl, ?_, by omega⟩
  rfl

/-- C2: the bounding-box update never completes normally.  In both
placement modes updateBBoxes evaluates the local variable named label
as an argument of removeLabel (source lines 292 and 324) before the
let declaration that binds it (source lines 313 and 332) has been
initialized, so every call throws a ReferenceError from the temporal
dead zone instead of finishing the placement attempt. -/
theorem C2_updateBBoxes_always_throws (placement : Pl) (size : ℝ × ℝ)
    (buffer offset0 : Point) (upp eps spread : ℝ) (position : Point)
    (angles : ℝ × ℝ) (collapsed : ℝ × ℝ) :
    updateBBoxes placement size buffer offset0 upp eps spread position
      angles collapsed = Except.error JSErr.referenceError := by
  cases placement <;>
    simp [updateBBoxes, readVar, Bind.bind, Except.bind]

/-- C6: for every pair of distinct 2D points the directional angle
computed by getAngleFromSegment lies in the half-open interval
[0, 2 pi). -/
theorem C6_angle_in_Ico (pt1 pt2 : Point) (h : pt1 ≠ pt2) :
    getAngleFromSegment pt1 pt2 ∈ Set.Ico 0 (2 * Real.pi) := by
  obtain ⟨h1, h2⟩ := getAngle_mem pt1 pt2
  exact ⟨h1, h2⟩

theorem C6_angle_in_Ico_witness :
    ((0 : ℝ), (0 : ℝ)) ≠ ((1 : ℝ), (0 : ℝ)) ∧
      getAngleFromSegment ((0 : ℝ), (0 : ℝ)) ((1 : ℝ), (0 : ℝ)) ∈
        Set.Ico 0 (2 * Real.pi) :=
  ⟨by norm_num [Prod.ext_iff], C6_angle_in_Ico ((0 : ℝ), (0 : ℝ))
    ((1 : ℝ), (0 : ℝ)) (by norm_num [Prod.ext_iff])⟩

/-- C5: for line_exceed different from 100 (the divisor 100 -
line_exceed is then nonzero and the excess ratio is the finite real
100 / (100 - line_exceed)), the straight segment fit test succeeds if
and only if label_width_px * units_per_pixel is strictly below the
excess ratio times the Euclidean distance between the two segment
points. -/
theorem C5_straight_fit_iff (p0 p1 : Point) (size0 upp lexc : ℝ)
    (h : lexc ≠ 100) :
    doesSegmentFitStraight p0 p1 size0 upp lexc ↔
      size0 * upp < (100 / (100 - lexc)) *
        Real.sqrt ((p0.1 - p1.1) ^ 2 + (p0.2 - p1.2) ^ 2) := by
  unfold doesSegmentFitStraight
  rw [excessOf_ne h]
  simp only [mulJS, ltRJ, vlength, vsub]

theorem C5_straight_fit_iff_witness :
    (0 : ℝ) ≠ 100 ∧
      doesSegmentFitStraight ((0 : ℝ), (0 : ℝ)) ((3 : ℝ), (4 : ℝ)) 1 1 0 := by
  refine ⟨by norm_num, ?_⟩
  apply (C5_straight_fit_iff ((0 : ℝ), (0 : ℝ)) ((3 : ℝ), (4 : ℝ)) 1 1 0
    (by norm_num)).mpr
  have h25 : ((0 : ℝ) - 3) ^ 2 + ((0 : ℝ) - 4) ^ 2 = 25 := by norm_num
  rw [h25, show (25 : ℝ) = 5 ^ 2 by norm_num,
    Real.sqrt_sq (by norm_num : (0 : ℝ) ≤ 5)]
  norm_num

theorem atan2_of_neg_zero {y : ℝ} (hy : y < 0) :
    atan2 y 0 = -(Real.pi / 2) := by
  unfold atan2
  rw [if_neg (lt_irrefl 0), if_neg (lt_irrefl 0), if_neg (by linarith),
    if_pos hy]

theorem normalizeAngle_zero : normalizeAngle 0 = 0 := by
  have hpi := Real.pi_pos
  unfold normalizeAngle
  rw [if_neg (by linarith), if_neg (lt_irrefl 0)]

theorem getAngle_horiz_left {a b c : ℝ} (h : a < b) :
    getAngleFromSegment (a, c) (b, c) = 0 := by
  unfold getAngleFromSegment
  have hsub : vsub (a, c) (b, c) = (a - b, 0) := by
    unfold vsub
    norm_num
  rw [hsub]
  simp only
  rw [atan2_of_neg_zero (by linarith : a - b < 0)]
  rw [show -(Real.pi / 2) + Real.pi / 2 = 0 by ring, normalizeAngle_zero]

theorem cornerAngles_nonneg (p0 p1 p2 : Point) :
    0 ≤ (cornerAngles p0 p1 p2).1 ∧ 0 ≤ (cornerAngles p0 p1 p2).2 := by
  simp only [cornerAngles]
  split <;>
    exact ⟨(getAngle_mem _ _).1, (getAngle_mem _ _).1⟩

theorem inAngleBounds_of_nonneg {a : ℝ × ℝ} (h1 : 0 ≤ a.1) (h2 : 0 ≤ a.2) :
    inAngleBoundsCorner a ↔
      min (2 * Real.pi - |a.2 - a.1|) |a.2 - a.1| ≤ Real.pi / 2 := by
  unfold inAngleBoundsCorner
  rw [if_neg (not_lt.mpr h1), if_neg (not_lt.mpr h2)]

/-- C4: for an accepted corner placement (kinked fit succeeded, corner
angle bound passed), with the segment_size piece widths positive: the
two collapsed sizes sum to the total of segment_size, both are strictly
positive, the kink index is strictly between 0 and segment_size.length,
and the folded angular difference of the two placement angles is at
most pi/2. -/
theorem C4_corner_invariants {p0 p1 p2 : Point} {ss : List ℝ}
    {size0 upp lexc : ℝ} {k : ℕ} {l1 l2 c0 c1 : ℝ}
    (hpos : ∀ x ∈ ss, 0 < x)
    (hfit : fitKinkedSegment p0 p1 p2 ss size0 upp lexc =
      some (k, l1, l2, c0, c1))
    (hang : inAngleBoundsCorner (cornerAngles p0 p1 p2)) :
    c0 + c1 = ss.sum ∧ 0 < c0 ∧ 0 < c1 ∧ 0 < k ∧ k < ss.length ∧
      min (2 * Real.pi -
            |(cornerAngles p0 p1 p2).2 - (cornerAngles p0 p1 p2).1|)
          |(cornerAngles p0 p1 p2).2 - (cornerAngles p0 p1 p2).1| ≤
        Real.pi / 2 := by
  obtain ⟨hk1, hklen, hc0, hc1, hsum, hl2⟩ := fitKinked_some_spec hfit
  have hcsum : c0 + c1 = ss.sum := by
    rw [hc0, hc1, ← List.sum_append, List.take_append_drop]
  have htake_ne : ss.take k ≠ [] := by
    intro hnil
    have := congrArg List.length hnil
    simp only [List.length_take, List.length_nil] at this
    omega
  have hdrop_ne : ss.drop k ≠ [] := by
    intro hnil
    have := congrArg List.length hnil
    simp only [List.length_drop, List.length_nil] at this
    omega
  have hc0pos : 0 < c0 := by
    rw [hc0]
    exact List.sum_pos _ (fun x hx => hpos x (List.mem_of_mem_take hx))
      htake_ne
  have hc1pos : 0 < c1 := by
    rw [hc1]
    exact List.sum_pos _ (fun x hx => hpos x (List.mem_of_mem_drop hx))
      hdrop_ne
  obtain ⟨ha1, ha2⟩ := cornerAngles_nonneg p0 p1 p2
  exact ⟨hcsum, hc0pos, hc1pos, by omega, hklen,
    (inAngleBounds_of_nonneg ha1 ha2).mp hang⟩

theorem fitKinked_colinear_eval :
    fitKinkedSegment ((0 : ℝ), (0 : ℝ)) ((20 : ℝ), (0 : ℝ))
      ((40 : ℝ), (0 : ℝ)) [(5 : ℝ), 5] 10 1 0 = some (1, 5, 5, 5, 5) := by
  have hv1 : vsub ((0 : ℝ), (0 : ℝ)) ((20 : ℝ), (0 : ℝ)) =
      ((-20 : ℝ), (0 : ℝ)) := by
    unfold vsub
    norm_num
  have hv2 : vsub ((20 : ℝ), (0 : ℝ)) ((40 : ℝ), (0 : ℝ)) =
      ((-20 : ℝ), (0 : ℝ)) := by
    unfold vsub
    norm_num
  have hlen : vlength ((-20 : ℝ), (0 : ℝ)) = 20 := by
    rw [vlength_x0]
    norm_num
  have hex : excessOf 0 = JSNum.fin 1 := by
    rw [excessOf_ne (by norm_num)]
    norm_num
  have hfits : ltRJ (1 * ((10 : ℝ) - [(5 : ℝ), 5].getD (0 + 1) 0))
      (mulJS (JSNum.fin 1) 20) ∧
      ltRJ (1 * ((0 : ℝ) + [(5 : ℝ), 5].getD (0 + 1) 0))
      (mulJS (JSNum.fin 1) 20) := by
    simp only [ltRJ, mulJS, List.getD]
    norm_num
  have hloop : kinkLoop [(5 : ℝ), 5]
      (fun l1 l2 => ltRJ (1 * l1) (mulJS (JSNum.fin 1) 20) ∧
        ltRJ (1 * l2) (mulJS (JSNum.fin 1) 20)) 1 10 0 = some (1, 5, 5) := by
    rw [kinkLoop]
    rw [if_pos hfits]
    have hgd0 : [(5 : ℝ), 5].getD (0 + 1) 0 = 5 := by simp [List.getD]
    rw [hgd0]
    norm_num
  simp only [fitKinkedSegment, hv1, hv2, hlen, hex]
  rw [if_neg (by norm_num)]
  have hlist : ([(5 : ℝ), 5].length - 1) = 1 := by simp
  rw [hlist, hloop]
  simp [List.getD]

theorem C4_corner_invariants_witness :
    (5 : ℝ) + 5 = [(5 : ℝ), 5].sum ∧ (0 : ℝ) < 5 ∧ (0 : ℝ) < 5 ∧
      0 < 1 ∧ 1 < [(5 : ℝ), 5].length ∧
      min (2 * Real.pi -
            |(cornerAngles ((0 : ℝ), (0 : ℝ)) ((20 : ℝ), (0 : ℝ))
                ((40 : ℝ), (0 : ℝ))).2 -
              (cornerAngles ((0 : ℝ), (0 : ℝ)) ((20 : ℝ), (0 : ℝ))
                ((40 : ℝ), (0 : ℝ))).1|)
          |(cornerAngles ((0 : ℝ), (0 : ℝ)) ((20 : ℝ), (0 : ℝ))
              ((40 : ℝ), (0 : ℝ))).2 -
            (cornerAngles ((0 : ℝ), (0 : ℝ)) ((20 : ℝ), (0 : ℝ))
              ((40 : ℝ), (0 : ℝ))).1| ≤ Real.pi / 2 := by
  have hang : cornerAngles ((0 : ℝ), (0 : ℝ)) ((20 : ℝ), (0 : ℝ))
      ((40 : ℝ), (0 : ℝ)) = (0, 0) := by
    unfold cornerAngles
    have hv1 : vsub ((0 : ℝ), (0 : ℝ)) ((20 : ℝ), (0 : ℝ)) =
        ((-20 : ℝ), (0 : ℝ)) := by
      unfold vsub
      norm_num
    rw [hv1]
    rw [if_neg (by norm_num)]
    rw [getAngle_horiz_left (by norm_num : (0 : ℝ) < 20),
      getAngle_horiz_left (by norm_num : (20 : ℝ) < 40)]
  have hbounds : inAngleBoundsCorner (cornerAngles ((0 : ℝ), (0 : ℝ))
      ((20 : ℝ), (0 : ℝ)) ((40 : ℝ), (0 : ℝ))) := by
    rw [hang]
    have hpi := Real.pi_pos
    rw [inAngleBounds_of_nonneg (by norm_num) (by norm_num)]
    simp only [sub_self, abs_zero, sub_zero]
    calc min (2 * Real.pi) 0 ≤ 0 := min_le_right _ _
    _ ≤ Real.pi / 2 := by linarith
  exact C4_corner_invariants
    (by
      intro x hx
      simp only [List.mem_cons, List.mem_singleton] at hx
      rcases hx with h | h | h
      · rw [h]; norm_num
      · rw [h]; norm_num
      · exact absurd h (List.not_mem_nil x))
    fitKinked_colinear_eval hbounds

/-- C10: on any successful kinked fit the tested side-2 width always
equals collapsed_size[1], and the tested side-1 width equals
collapsed_size[0] exactly when the label's total pixel width size[0]
equals the sum of the segment_size pieces (the loop starts side 1 at
size[0] while the collapsed sizes are sums over segment_size alone). -/
theorem C10_tested_widths_iff {p0 p1 p2 : Point} {ss : List ℝ}
    {size0 upp lexc : ℝ} {k : ℕ} {l1 l2 c0 c1 : ℝ}
    (hfit : fitKinkedSegment p0 p1 p2 ss size0 upp lexc =
      some (k, l1, l2, c0, c1)) :
    (l1 = c0 ∧ l2 = c1) ↔ size0 = ss.sum := by
  obtain ⟨hk1, hklen, hc0, hc1, hsum, hl2⟩ := fitKinked_some_spec hfit
  have hcsum : c0 + c1 = ss.sum := by
    rw [hc0, hc1, ← List.sum_append, List.take_append_drop]
  constructor
  · rintro ⟨ha, hb⟩
    linarith
  · intro hs
    constructor
    · linarith
    · exact hl2

theorem C10_tested_widths_iff_witness :
    ((5 : ℝ) = 5 ∧ (5 : ℝ) = 5) ↔ (10 : ℝ) = [(5 : ℝ), 5].sum :=
  C10_tested_widths_iff fitKinked_colinear_eval

theorem getAngle_eq (pt1 pt2 : Point) (vx vy : ℝ)
    (hv : vsub pt1 pt2 = (vx, vy)) :
    getAngleFromSegment pt1 pt2 =
      normalizeAngle (atan2 vx vy + Real.pi / 2) := by
  unfold getAngleFromSegment
  rw [hv]

theorem floor_seven_eighths : ⌊(7 : ℝ) / 8⌋ = 0 := by
  rw [Int.floor_eq_iff]
  norm_num

theorem floor_nine_eighths : ⌊(9 : ℝ) / 8⌋ = 1 := by
  rw [Int.floor_eq_iff]
  norm_num

theorem jsMod_seven_quarters_pi :
    jsMod (7 * Real.pi / 4) (2 * Real.pi) = 7 * Real.pi / 4 := by
  have hpi := Real.pi_pos
  have hq : (7 * Real.pi / 4) / (2 * Real.pi) = 7 / 8 := by
    rw [div_eq_div_iff (by positivity) (by norm_num)]
    ring
  unfold jsMod
  rw [hq, if_pos (by norm_num), floor_seven_eighths]
  norm_num

theorem jsMod_nine_quarters_pi :
    jsMod (9 * Real.pi / 4) (2 * Real.pi) = Real.pi / 4 := by
  have hpi := Real.pi_pos
  have hq : (9 * Real.pi / 4) / (2 * Real.pi) = 9 / 8 := by
    rw [div_eq_div_iff (by positivity) (by norm_num)]
    ring
  unfold jsMod
  rw [hq, if_pos (by norm_num), floor_nine_eighths]
  push_cast
  ring

theorem atan2_ten_ten : atan2 10 10 = Real.pi / 4 := by
  unfold atan2
  rw [if_pos (by norm_num : (0 : ℝ) < 10)]
  rw [show (10 : ℝ) / 10 = 1 by norm_num, Real.arctan_one]

theorem atan2_ten_negten : atan2 10 (-10) = 3 * Real.pi / 4 := by
  unfold atan2
  rw [if_neg (by norm_num : ¬ (0 : ℝ) < -10),
    if_pos (by norm_num : (-10 : ℝ) < 0),
    if_pos (by norm_num : (0 : ℝ) ≤ 10)]
  rw [show (10 : ℝ) / (-10) = -1 by norm_num]
  rw [show (-1 : ℝ) = -(1 : ℝ) by norm_num, Real.arctan_neg, Real.arctan_one]
  ring

theorem angle_diag_up : getAngleFromSegment ((10 : ℝ), (10 : ℝ))
    ((0 : ℝ), (0 : ℝ)) = 7 * Real.pi / 4 := by
  have hpi := Real.pi_pos
  rw [getAngle_eq _ _ 10 10 (by unfold vsub; norm_num)]
  rw [atan2_ten_ten]
  unfold normalizeAngle
  rw [if_pos (by linarith)]
  rw [show Real.pi / 4 + Real.pi / 2 + Real.pi = 7 * Real.pi / 4 by ring]
  exact jsMod_seven_quarters_pi

theorem angle_diag_down : getAngleFromSegment ((0 : ℝ), (0 : ℝ))
    ((-10 : ℝ), (10 : ℝ)) = Real.pi / 4 := by
  have hpi := Real.pi_pos
  rw [getAngle_eq _ _ 10 (-10) (by unfold vsub; norm_num)]
  rw [atan2_ten_negten]
  unfold normalizeAngle
  rw [if_pos (by linarith)]
  rw [show 3 * Real.pi / 4 + Real.pi / 2 + Real.pi = 9 * Real.pi / 4 by ring]
  exact jsMod_nine_quarters_pi

/-- C3 counterexample: a corner segment whose two sub-vectors (10, 10)
and (10, -10) disagree in sign on exactly one axis (the y axis) while
agreeing on the other (the x axis), yet the kinked fit succeeds and the
angle bound accepts, producing a corner candidate: the source test
(line 154) only fires when the x signs disagree and the y signs agree,
not in the symmetric case. -/
theorem C3_y_axis_disagreement_accepted :
    0 < (vsub ((10 : ℝ), (10 : ℝ)) ((0 : ℝ), (0 : ℝ))).1 *
        (vsub ((0 : ℝ), (0 : ℝ)) ((-10 : ℝ), (10 : ℝ))).1 ∧
    (vsub ((10 : ℝ), (10 : ℝ)) ((0 : ℝ), (0 : ℝ))).2 *
        (vsub ((0 : ℝ), (0 : ℝ)) ((-10 : ℝ), (10 : ℝ))).2 < 0 ∧
    cornerCandidate ((10 : ℝ), (10 : ℝ)) ((0 : ℝ), (0 : ℝ))
      ((-10 : ℝ), (10 : ℝ)) [(5 : ℝ), 5] 10 1 0 := by
  have hpi := Real.pi_pos
  have hv1 : vsub ((10 : ℝ), (10 : ℝ)) ((0 : ℝ), (0 : ℝ)) =
      ((10 : ℝ), (10 : ℝ)) := by
    unfold vsub
    norm_num
  have hv2 : vsub ((0 : ℝ), (0 : ℝ)) ((-10 : ℝ), (10 : ℝ)) =
      ((10 : ℝ), (-10 : ℝ)) := by
    unfold vsub
    norm_num
  refine ⟨by rw [hv1, hv2]; norm_num, by rw [hv1, hv2]; norm_num, ?_, ?_⟩
  · -- the kinked fit succeeds
    have hlen1 : vlength ((10 : ℝ), (10 : ℝ)) = Real.sqrt 200 := by
      unfold vlength
      norm_num
    have hlen2 : vlength ((10 : ℝ), (-10 : ℝ)) = Real.sqrt 200 := by
      unfold vlength
      norm_num
    have hex : excessOf 0 = JSNum.fin 1 := by
      rw [excessOf_ne (by norm_num)]
      norm_num
    have hsqrt : (5 : ℝ) < Real.sqrt 200 := by
      rw [Real.lt_sqrt (by norm_num)]
      norm_num
    have hfits : ltRJ (1 * ((10 : ℝ) - [(5 : ℝ), 5].getD (0 + 1) 0))
        (mulJS (JSNum.fin 1) (Real.sqrt 200)) ∧
        ltRJ (1 * ((0 : ℝ) + [(5 : ℝ), 5].getD (0 + 1) 0))
        (mulJS (JSNum.fin 1) (Real.sqrt 200)) := by
      simp only [ltRJ, mulJS, List.getD]
      norm_num
      exact hsqrt
    have hloop : kinkLoop [(5 : ℝ), 5]
        (fun l1 l2 => ltRJ (1 * l1) (mulJS (JSNum.fin 1) (Real.sqrt 200)) ∧
          ltRJ (1 * l2) (mulJS (JSNum.fin 1) (Real.sqrt 200))) 1 10 0 =
        some (1, 5, 5) := by
      rw [kinkLoop]
      rw [if_pos hfits]
      have hgd0 : [(5 : ℝ), 5].getD (0 + 1) 0 = 5 := by simp [List.getD]
      rw [hgd0]
      norm_num
    simp only [fitKinkedSegment, hv1, hv2, hlen1, hlen2, hex]
    rw [if_neg (by norm_num)]
    have hlist : ([(5 : ℝ), 5].length - 1) = 1 := by simp
    rw [hlist, hloop]
    simp
  · -- the corner angle bound accepts
    have hang : cornerAngles ((10 : ℝ), (10 : ℝ)) ((0 : ℝ), (0 : ℝ))
        ((-10 : ℝ), (10 : ℝ)) = (Real.pi / 4, 7 * Real.pi / 4) := by
      simp only [cornerAngles, hv1, hv2]
      rw [if_pos (by norm_num)]
      rw [angle_diag_up, angle_diag_down]
    rw [hang]
    rw [inAngleBounds_of_nonneg (by positivity) (by positivity)]
    have habs : |7 * Real.pi / 4 - Real.pi / 4| = 3 * Real.pi / 2 := by
      rw [abs_of_nonneg (by linarith)]
      ring
    rw [habs]
    have hmin : min (2 * Real.pi - 3 * Real.pi / 2) (3 * Real.pi / 2) =
        Real.pi / 2 := by
      rw [show 2 * Real.pi - 3 * Real.pi / 2 = Real.pi / 2 by ring]
      exact min_eq_left (by linarith)
    rw [hmin]

/-- C3 amended: the kink pre-test rejects immediately exactly in the
orientation the source tests: when the x-components of the two
sub-segment vectors disagree in sign (product negative) while the
y-components strictly agree (product positive), the kinked fit returns
no result; sign disagreement on the y axis alone does not trigger the
rejection. -/
theorem C3_kink_sign_reject {p0 p1 p2 : Point} {ss : List ℝ}
    {size0 upp lexc : ℝ}
    (h : (vsub p0 p1).1 * (vsub p1 p2).1 < 0 ∧
      0 < (vsub p0 p1).2 * (vsub p1 p2).2) :
    fitKinkedSegment p0 p1 p2 ss size0 upp lexc = none := by
  simp only [fitKinkedSegment]
  rw [if_pos h]

theorem C3_kink_sign_reject_witness :
    ((vsub ((1 : ℝ), (1 : ℝ)) ((0 : ℝ), (0 : ℝ))).1 *
        (vsub ((0 : ℝ), (0 : ℝ)) ((1 : ℝ), (-1 : ℝ))).1 < 0 ∧
      0 < (vsub ((1 : ℝ), (1 : ℝ)) ((0 : ℝ), (0 : ℝ))).2 *
        (vsub ((0 : ℝ), (0 : ℝ)) ((1 : ℝ), (-1 : ℝ))).2) ∧
    fitKinkedSegment ((1 : ℝ), (1 : ℝ)) ((0 : ℝ), (0 : ℝ))
      ((1 : ℝ), (-1 : ℝ)) [(5 : ℝ), 5] 10 1 0 = none := by
  have hsign : (vsub ((1 : ℝ), (1 : ℝ)) ((0 : ℝ), (0 : ℝ))).1 *
      (vsub ((0 : ℝ), (0 : ℝ)) ((1 : ℝ), (-1 : ℝ))).1 < 0 ∧
      0 < (vsub ((1 : ℝ), (1 : ℝ)) ((0 : ℝ), (0 : ℝ))).2 *
        (vsub ((0 : ℝ), (0 : ℝ)) ((1 : ℝ), (-1 : ℝ))).2 := by
    unfold vsub
    norm_num
  exact ⟨hsign, C3_kink_sign_reject hsign⟩

theorem mulJS_posInf_of_pos {r : ℝ} (h : 0 < r) :
    mulJS JSNum.posInf r = JSNum.posInf := by
  simp only [mulJS]
  rw [if_pos h]

theorem mulJS_posInf_zero : mulJS JSNum.posInf 0 = JSNum.nan := by
  simp only [mulJS]
  rw [if_neg (lt_irrefl 0), if_neg (lt_irrefl 0)]

/-- C9 counterexample: with line_exceed = 100 the straight fit does not
accept every segment.  On a zero-length segment the excess ratio is
Infinity but Infinity times the zero segment length is NaN, every
comparison with NaN is false, and the fit test rejects. -/
theorem C9_zero_length_rejected :
    ¬ doesSegmentFitStraight ((0 : ℝ), (0 : ℝ)) ((0 : ℝ), (0 : ℝ))
      10 1 100 := by
  unfold doesSegmentFitStraight
  rw [excessOf_hundred]
  have hv : vsub ((0 : ℝ), (0 : ℝ)) ((0 : ℝ), (0 : ℝ)) =
      ((0 : ℝ), (0 : ℝ)) := by
    unfold vsub
    norm_num
  rw [hv]
  have hl : vlength ((0 : ℝ), (0 : ℝ)) = 0 := by
    rw [vlength_x0]
    norm_num
  rw [hl, mulJS_posInf_zero]
  simp [ltRJ]

theorem kinkLoop_top (ss : List ℝ) (fits : ℝ → ℝ → Prop)
    (hfits : ∀ l1 l2, fits l1 l2) (k : ℕ) (l1 l2 : ℝ) :
    (kinkLoop ss fits (k + 1) l1 l2).isSome := by
  rw [kinkLoop]
  rw [if_pos (hfits _ _)]
  simp

/-- C9 amended: when line_exceed = 100 the divisor of the excess ratio
is zero and the ratio is Infinity; the straight fit test then accepts a
label of any width exactly when the segment length is positive (a
zero-length segment makes Infinity times zero NaN, whose comparison is
false, so such segments are rejected), and the kinked fit test accepts
any label widths as soon as both sub-segment lengths are positive, the
sign pre-test passes, and segment_size has at least two pieces. -/
theorem C9_line_exceed_100 :
    (∀ (p0 p1 : Point) (size0 upp : ℝ),
      doesSegmentFitStraight p0 p1 size0 upp 100 ↔
        0 < vlength (vsub p0 p1)) ∧
    (∀ (p0 p1 p2 : Point) (ss : List ℝ) (size0 upp : ℝ),
      2 ≤ ss.length →
      ¬ ((vsub p0 p1).1 * (vsub p1 p2).1 < 0 ∧
        0 < (vsub p0 p1).2 * (vsub p1 p2).2) →
      0 < vlength (vsub p0 p1) → 0 < vlength (vsub p1 p2) →
      (fitKinkedSegment p0 p1 p2 ss size0 upp 100).isSome) := by
  constructor
  · intro p0 p1 size0 upp
    unfold doesSegmentFitStraight
    rw [excessOf_hundred]
    have hL0 : 0 ≤ vlength (vsub p0 p1) := Real.sqrt_nonneg _
    by_cases hL : 0 < vlength (vsub p0 p1)
    · rw [mulJS_posInf_of_pos hL]
      simp [ltRJ, hL]
    · have hLz : vlength (vsub p0 p1) = 0 := le_antisymm (not_lt.mp hL) hL0
      rw [hLz, mulJS_posInf_zero]
      simp [ltRJ, hLz]
  · intro p0 p1 p2 ss size0 upp hlen hsign hL1 hL2
    simp only [fitKinkedSegment, excessOf_hundred]
    rw [if_neg hsign]
    have hfits : ∀ l1 l2 : ℝ,
        ltRJ (upp * l1) (mulJS JSNum.posInf (vlength (vsub p0 p1))) ∧
        ltRJ (upp * l2) (mulJS JSNum.posInf (vlength (vsub p1 p2))) := by
      intro l1 l2
      rw [mulJS_posInf_of_pos hL1, mulJS_posInf_of_pos hL2]
      exact ⟨trivial, trivial⟩
    have hm : ss.length - 1 = (ss.length - 2) + 1 := by omega
    rw [hm, kinkLoop]
    rw [if_pos (hfits _ _)]
    simp

theorem C9_line_exceed_100_witness :
    doesSegmentFitStraight ((0 : ℝ), (0 : ℝ)) ((3 : ℝ), (4 : ℝ))
      1000000 1 100 ∧
    (fitKinkedSegment ((0 : ℝ), (0 : ℝ)) ((1 : ℝ), (0 : ℝ))
      ((2 : ℝ), (0 : ℝ)) [(5 : ℝ), 5] 1000000 1 100).isSome := by
  constructor
  · apply (C9_line_exceed_100.1 ((0 : ℝ), (0 : ℝ)) ((3 : ℝ), (4 : ℝ))
      1000000 1).mpr
    have hv : vsub ((0 : ℝ), (0 : ℝ)) ((3 : ℝ), (4 : ℝ)) =
        ((-3 : ℝ), (-4 : ℝ)) := by
      unfold vsub
      norm_num
    rw [hv]
    unfold vlength
    rw [Real.sqrt_pos]
    norm_num
  · have h1 : vsub ((0 : ℝ), (0 : ℝ)) ((1 : ℝ), (0 : ℝ)) =
        ((-1 : ℝ), (0 : ℝ)) := by
      unfold vsub
      norm_num
    have h2 : vsub ((1 : ℝ), (0 : ℝ)) ((2 : ℝ), (0 : ℝ)) =
        ((-1 : ℝ), (0 : ℝ)) := by
      unfold vsub
      norm_num
    apply C9_line_exceed_100.2 _ _ _ _ _ _ (by simp)
    · rw [h1, h2]
      norm_num
    · rw [h1, vlength_x0]
      norm_num
    · rw [h2, vlength_x0]
      norm_num

/-- A concrete 4-point horizontal polyline with 20-unit spacing, used
to exercise the iteration protocol with a label of pixel width 10 and
segment_size [5, 5]. -/
noncomputable def exPt : ℕ → Point
  | 0 => (0, 0)
  | 1 => (20, 0)
  | 2 => (40, 0)
  | _ => (60, 0)

theorem fitS_horiz (x y c : ℝ) (h : x - y = -20) :
    doesSegmentFitStraight (x, c) (y, c) 10 1 0 := by
  unfold doesSegmentFitStraight
  have hv : vsub (x, c) (y, c) = ((-20 : ℝ), (0 : ℝ)) := by
    unfold vsub
    rw [Prod.ext_iff]
    constructor
    · exact h
    · norm_num
  rw [hv, vlength_x0, excessOf_ne (by norm_num)]
  simp only [mulJS, ltRJ]
  norm_num

theorem inAngleBounds_zero_pair : inAngleBoundsCorner ((0 : ℝ), (0 : ℝ)) := by
  have hpi := Real.pi_pos
  rw [inAngleBounds_of_nonneg (by norm_num) (by norm_num)]
  simp only [sub_self, abs_zero, sub_zero]
  calc min (2 * Real.pi) 0 ≤ 0 := min_le_right _ _
  _ ≤ Real.pi / 2 := by linarith

theorem cornerAngles_colinear1 :
    cornerAngles ((0 : ℝ), (0 : ℝ)) ((20 : ℝ), (0 : ℝ)) ((40 : ℝ), (0 : ℝ)) =
      (0, 0) := by
  simp only [cornerAngles]
  have hv1 : vsub ((0 : ℝ), (0 : ℝ)) ((20 : ℝ), (0 : ℝ)) =
      ((-20 : ℝ), (0 : ℝ)) := by
    unfold vsub
    norm_num
  rw [hv1]
  rw [if_neg (by norm_num)]
  rw [getAngle_horiz_left (by norm_num : (0 : ℝ) < 20),
    getAngle_horiz_left (by norm_num : (20 : ℝ) < 40)]

theorem cornerAngles_colinear2 :
    cornerAngles ((20 : ℝ), (0 : ℝ)) ((40 : ℝ), (0 : ℝ)) ((60 : ℝ), (0 : ℝ)) =
      (0, 0) := by
  simp only [cornerAngles]
  have hv1 : vsub ((20 : ℝ), (0 : ℝ)) ((40 : ℝ), (0 : ℝ)) =
      ((-20 : ℝ), (0 : ℝ)) := by
    unfold vsub
    norm_num
  rw [hv1]
  rw [if_neg (by norm_num)]
  rw [getAngle_horiz_left (by norm_num : (20 : ℝ) < 40),
    getAngle_horiz_left (by norm_num : (40 : ℝ) < 60)]

theorem fitKinked_colinear_eval2 :
    fitKinkedSegment ((20 : ℝ), (0 : ℝ)) ((40 : ℝ), (0 : ℝ))
      ((60 : ℝ), (0 : ℝ)) [(5 : ℝ), 5] 10 1 0 = some (1, 5, 5, 5, 5) := by
  have hv1 : vsub ((20 : ℝ), (0 : ℝ)) ((40 : ℝ), (0 : ℝ)) =
      ((-20 : ℝ), (0 : ℝ)) := by
    unfold vsub
    norm_num
  have hv2 : vsub ((40 : ℝ), (0 : ℝ)) ((60 : ℝ), (0 : ℝ)) =
      ((-20 : ℝ), (0 : ℝ)) := by
    unfold vsub
    norm_num
  have hlen : vlength ((-20 : ℝ), (0 : ℝ)) = 20 := by
    rw [vlength_x0]
    norm_num
  have hex : excessOf 0 = JSNum.fin 1 := by
    rw [excessOf_ne (by norm_num)]
    norm_num
  have hfits : ltRJ (1 * ((10 : ℝ) - [(5 : ℝ), 5].getD (0 + 1) 0))
      (mulJS (JSNum.fin 1) 20) ∧
      ltRJ (1 * ((0 : ℝ) + [(5 : ℝ), 5].getD (0 + 1) 0))
      (mulJS (JSNum.fin 1) 20) := by
    simp only [ltRJ, mulJS, List.getD]
    norm_num
  have hloop : kinkLoop [(5 : ℝ), 5]
      (fun l1 l2 => ltRJ (1 * l1) (mulJS (JSNum.fin 1) 20) ∧
        ltRJ (1 * l2) (mulJS (JSNum.fin 1) 20)) 1 10 0 = some (1, 5, 5) := by
    rw [kinkLoop]
    rw [if_pos hfits]
    have hgd0 : [(5 : ℝ), 5].getD (0 + 1) 0 = 5 := by simp [List.getD]
    rw [hgd0]
    norm_num
  simp only [fitKinkedSegment, hv1, hv2, hlen, hex]
  rw [if_neg (by norm_num)]
  have hlist : ([(5 : ℝ), 5].length - 1) = 1 := by simp
  rw [hlist, hloop]
  simp [List.getD]

/-- The acceptance verdict of the fit, tile-bound and angle-bound tests
on the concrete 4-point line, label width 10, units_per_pixel 1,
line_exceed 0, segment_size [5, 5]; the external inTileBounds test is
taken to hold (tile large enough). -/
noncomputable def acceptEx : St → Prop := fun s =>
  match s with
  | (i, Pl.mid) => doesSegmentFitStraight (exPt i) (exPt (i + 1)) 10 1 0
  | (i, Pl.corner) =>
      cornerCandidate (exPt (i - 1)) (exPt i) (exPt (i + 1)) [(5 : ℝ), 5]
        10 1 0

theorem acceptEx_0m : acceptEx (0, Pl.mid) := by
  show doesSegmentFitStraight ((0 : ℝ), (0 : ℝ)) ((20 : ℝ), (0 : ℝ)) 10 1 0
  exact fitS_horiz 0 20 0 (by norm_num)

theorem acceptEx_1m : acceptEx (1, Pl.mid) := by
  show doesSegmentFitStraight ((20 : ℝ), (0 : ℝ)) ((40 : ℝ), (0 : ℝ)) 10 1 0
  exact fitS_horiz 20 40 0 (by norm_num)

theorem acceptEx_2m : acceptEx (2, Pl.mid) := by
  show doesSegmentFitStraight ((40 : ℝ), (0 : ℝ)) ((60 : ℝ), (0 : ℝ)) 10 1 0
  exact fitS_horiz 40 60 0 (by norm_num)

theorem acceptEx_1c : acceptEx (1, Pl.corner) := by
  show cornerCandidate ((0 : ℝ), (0 : ℝ)) ((20 : ℝ), (0 : ℝ))
    ((40 : ℝ), (0 : ℝ)) [(5 : ℝ), 5] 10 1 0
  constructor
  · rw [fitKinked_colinear_eval]
    simp
  · rw [cornerAngles_colinear1]
    exact inAngleBounds_zero_pair

theorem acceptEx_2c : acceptEx (2, Pl.corner) := by
  show cornerCandidate ((20 : ℝ), (0 : ℝ)) ((40 : ℝ), (0 : ℝ))
    ((60 : ℝ), (0 : ℝ)) [(5 : ℝ), 5] 10 1 0
  constructor
  · rw [fitKinked_colinear_eval2]
    simp
  · rw [cornerAngles_colinear2]
    exact inAngleBounds_zero_pair

/-- C7 counterexample: on a 4-point line (N = 4) whose every straight
and corner candidate is accepted, the chain that starts from the
successfully constructed attempt at segment 0 and repeatedly advances
produces 5 placement attempts (straight at 0, corner and straight at 1,
corner and straight at 2) before exhaustion, exceeding the claimed
bound of N - 1 = 3. -/
theorem C7_five_attempts_on_four_points :
    acceptEx (0, Pl.mid) ∧
    chainCount 4 true acceptEx (0, Pl.mid) = 5 ∧ ¬ (5 : ℕ) ≤ 4 - 1 := by
  have hn4 : nextLabelStep 4 true acceptEx (2, Pl.mid) = none := rfl
  have hn3 : nextLabelStep 4 true acceptEx (2, Pl.corner) =
      some (2, Pl.mid) := by
    unfold nextLabelStep
    have hs : stepState 4 true (2, Pl.corner) = some (2, Pl.mid) := rfl
    rw [hs]
    simp only [Option.some_bind]
    rw [ctorSearch]
    rw [if_pos acceptEx_2m]
  have hn2 : nextLabelStep 4 true acceptEx (1, Pl.mid) =
      some (2, Pl.corner) := by
    unfold nextLabelStep
    have hs : stepState 4 true (1, Pl.mid) = some (2, Pl.corner) := rfl
    rw [hs]
    simp only [Option.some_bind]
    rw [ctorSearch]
    rw [if_pos acceptEx_2c]
  have hn1 : nextLabelStep 4 true acceptEx (1, Pl.corner) =
      some (1, Pl.mid) := by
    unfold nextLabelStep
    have hs : stepState 4 true (1, Pl.corner) = some (1, Pl.mid) := rfl
    rw [hs]
    simp only [Option.some_bind]
    rw [ctorSearch]
    rw [if_pos acceptEx_1m]
  have hn0 : nextLabelStep 4 true acceptEx (0, Pl.mid) =
      some (1, Pl.corner) := by
    unfold nextLabelStep
    have hs : stepState 4 true (0, Pl.mid) = some (1, Pl.corner) := rfl
    rw [hs]
    simp only [Option.some_bind]
    rw [ctorSearch]
    rw [if_pos acceptEx_1c]
  have hc4 : chainCount 4 true acceptEx (2, Pl.mid) = 1 := by
    rw [chainCount, hn4]
  have hc3 : chainCount 4 true acceptEx (2, Pl.corner) = 2 := by
    rw [chainCount, hn3]
    show 1 + chainCount 4 true acceptEx (2, Pl.mid) = 2
    rw [hc4]
  have hc2 : chainCount 4 true acceptEx (1, Pl.mid) = 3 := by
    rw [chainCount, hn2]
    show 1 + chainCount 4 true acceptEx (2, Pl.corner) = 3
    rw [hc3]
  have hc1 : chainCount 4 true acceptEx (1, Pl.corner) = 4 := by
    rw [chainCount, hn1]
    show 1 + chainCount 4 true acceptEx (1, Pl.mid) = 4
    rw [hc2]
  have hc0 : chainCount 4 true acceptEx (0, Pl.mid) = 5 := by
    rw [chainCount, hn0]
    show 1 + chainCount 4 true acceptEx (1, Pl.corner) = 5
    rw [hc1]
  exact ⟨acceptEx_0m, hc0, by omega⟩

/-- C7 amended: the advance chain always terminates, and from any valid
attempt state (index at most N - 2, corner states at index at least 1)
on an N-point line with N at least 2 it yields at most 2N - 3 placement
attempts in total; the claimed N - 1 bound does hold when articulation
is off (placement never enters CORNER mode between indices). -/
theorem C7_chain_bound (N : ℕ) (multi : Bool) (A : St → Prop) (s : St)
    (hN : 2 ≤ N) (hidx : s.1 ≤ N - 2) (hcor : s.2 = Pl.corner → 1 ≤ s.1) :
    chainCount N multi A s ≤ 2 * N - 3 ∧
      (multi = false → chainCount N multi A s ≤ N - 1) := by
  have h1 := chainCount_le_g N multi A (cBound N)
    (fun s t h => stepState_cBound_lt h) (meas N s) s (le_refl _)
  constructor
  · have hb : cBound N s + 1 ≤ 2 * N - 3 := by
      obtain ⟨i, p⟩ := s
      cases p <;> simp [cBound] at hcor ⊢ <;> omega
    omega
  · intro hm
    subst hm
    have h2 := chainCount_le_g N false A (cBound1 N)
      (fun s t h => stepState_cBound1_lt h) (meas N s) s (le_refl _)
    have hb : cBound1 N s + 1 ≤ N - 1 := by
      obtain ⟨i, p⟩ := s
      cases p <;> simp [cBound1] at hcor ⊢ <;> omega
    omega

theorem C7_chain_bound_witness :
    chainCount 3 false (fun _ => True) (0, Pl.mid) ≤ 2 * 3 - 3 ∧
      (false = false → chainCount 3 false (fun _ => True) (0, Pl.mid) ≤
        3 - 1) :=
  C7_chain_bound 3 false (fun _ => True) (0, Pl.mid) (by norm_num)
    (by norm_num) (by decide)

end LabelLine
